import Mathlib

/-!
Verification development for the `matrix-n` dense-matrix library
(`src/mod.js`, class `MatrixN`).

Embedding conventions:
* Matrix element values (JS `Float32Array` entries) are modeled as exact
  rationals `ℚ`.  The claims settled here concern control flow, shapes and
  exact algebraic structure, not binary floating-point rounding.
* JS methods that can `throw` are modeled as functions into
  `Except MatrixError _`; the error constructors follow the spec's taxonomy
  (section 7) and each corresponds to one of the source's `Error` messages.
* Division by zero, which in JS silently yields `Infinity`/`NaN` and never
  throws, is modeled by total division on `ℚ` (where `x / 0 = 0`); no theorem
  below depends on the numeric value produced by a division by zero, only on
  the fact that the code does not fail there.
* The numeric literals `1e-10` and `1e-12` of the source are modeled by the
  exact rationals `1 / 10 ^ 10` and `1 / 10 ^ 12`.
-/

/-- Error taxonomy of the library (spec section 7).  Each constructor stands
for one of the `throw new Error(...)` messages of `src/mod.js`:
`invalidDimension` = "Matrix dimensions must be positive.",
`shapeMismatch` = "Initial (flat) data ... do(es) not match matrix dimensions."
and "Input must be a non-empty 2D array.",
`lengthMismatch` = "Input array length does not match matrix dimensions.",
`indexOutOfBounds` = "Index out of bounds.",
`dimensionMismatch` = dimension errors of add/subtract/multiply,
`divisionByZero` = "Division by zero.",
`notSquare` = the three square-only messages of determinant/minor/invert,
`singularMatrix` = "Matrix is singular and cannot be inverted ...",
`notSquareString` = "Input string does not represent a square matrix.",
`invalidFormat` = "Invalid JSON format." -/
inductive MatrixError where
  | invalidDimension
  | shapeMismatch
  | lengthMismatch
  | indexOutOfBounds
  | dimensionMismatch
  | divisionByZero
  | notSquare
  | singularMatrix
  | notSquareString
  | invalidFormat
deriving DecidableEq

/-- The matrix store (spec section 3): row/column counts plus the row-major
flat buffer `elements`, element (r,c) at linear offset `r * cols + c`. -/
structure MatrixN where
  rows : Nat
  cols : Nat
  elements : List ℚ
deriving DecidableEq

/-- Decidable equality of fallible results, for concrete evaluation. -/
instance {e a : Type} [DecidableEq e] [DecidableEq a] :
    DecidableEq (Except e a) := fun x y =>
  match x, y with
  | .error u, .error v =>
      if h : u = v then .isTrue (by rw [h]) else .isFalse (by
        intro hc
        cases hc
        exact h rfl)
  | .error _, .ok _ => .isFalse (by intro hc; cases hc)
  | .ok _, .error _ => .isFalse (by intro hc; cases hc)
  | .ok u, .ok v =>
      if h : u = v then .isTrue (by rw [h]) else .isFalse (by
        intro hc
        cases hc
        exact h rfl)

/-- The data-model invariant of spec section 3: positive dimensions and a
fully initialized buffer of length `rows * cols`. -/
def MatrixN.wf (A : MatrixN) : Prop :=
  1 ≤ A.rows ∧ 1 ≤ A.cols ∧ A.elements.length = A.rows * A.cols

instance (A : MatrixN) : Decidable A.wf := by
  unfold MatrixN.wf
  infer_instance

/-- Row-major buffer of length `rows * cols` whose (i,j) entry is `f i j`:
the result of any source loop that writes every position (i,j) of a fresh
`Float32Array(rows * cols)` exactly once with `f i j`. -/
def mkElems (rows cols : Nat) (f : Nat → Nat → ℚ) : List ℚ :=
  List.ofFn (fun k : Fin (rows * cols) => f (k.val / cols) (k.val % cols))

/-- Reading `this.elements[row * this.cols + col]`.  The source's
`getElement` throws on out-of-bounds indices; every internal use in the
algorithms below is in bounds, so the total read (defaulting to 0 out of
bounds) is used there.  The bounds-checked public accessor is
`MatrixN.getElementE`. -/
def MatrixN.get (A : MatrixN) (r c : Nat) : ℚ :=
  A.elements.getD (r * A.cols + c) 0

/-- Writing `this.elements[row * this.cols + col] = value` (total version,
a no-op out of bounds, mirroring `List.set`); the bounds-checked public
mutator is `MatrixN.setElementE`. -/
def MatrixN.setE (A : MatrixN) (r c : Nat) (v : ℚ) : MatrixN :=
  ⟨A.rows, A.cols, A.elements.set (r * A.cols + c) v⟩

/-- `getElement(row, col)` with its bounds check (`Index out of bounds.`). -/
def MatrixN.getElementE (A : MatrixN) (r c : Nat) : Except MatrixError ℚ :=
  if A.rows ≤ r ∨ A.cols ≤ c then .error .indexOutOfBounds
  else .ok (A.get r c)

/-- `setElement(row, col, value)` with its bounds check. -/
def MatrixN.setElementE (A : MatrixN) (r c : Nat) (v : ℚ) :
    Except MatrixError MatrixN :=
  if A.rows ≤ r ∨ A.cols ≤ c then .error .indexOutOfBounds
  else .ok (A.setE r c v)

/-- `isSquare` getter: `this.rows === this.cols`. -/
def MatrixN.isSquare (A : MatrixN) : Bool :=
  A.rows == A.cols

/-- The `initialData` argument of the constructor: a flat row-major sequence
or a nested (per-row) sequence, the tagged variant recommended by spec
section 9. -/
inductive InitData where
  | flat (data : List ℚ)
  | nested (data : List (List ℚ))

/-- The `MatrixN` constructor.  Dimension counts are modeled as `Nat`, so the
source's `rows <= 0 || cols <= 0` check becomes `rows = 0 ∨ cols = 0`.
For nested data the source checks that there are exactly `rows` rows of
exactly `cols` entries each and then copies entry (i,j) of the nested data to
offset `i * cols + j` of the zero-filled buffer, which is `mkElems`. -/
def MatrixN.make (rows cols : Nat) (initialData : Option InitData) :
    Except MatrixError MatrixN :=
  if rows = 0 ∨ cols = 0 then .error .invalidDimension
  else
    match initialData with
    | none => .ok ⟨rows, cols, List.replicate (rows * cols) 0⟩
    | some (.flat d) =>
        if d.length = rows * cols then .ok ⟨rows, cols, d⟩
        else .error .shapeMismatch
    | some (.nested d) =>
        if d.length = rows ∧ ∀ row ∈ d, row.length = cols then
          .ok ⟨rows, cols, mkElems rows cols (fun i j => (d.getD i []).getD j 0)⟩
        else .error .shapeMismatch

/-- `MatrixN.fromArray`: non-emptiness check, column count taken from the
first row, remaining validation delegated to the constructor. -/
def MatrixN.fromArray (arrayOfArrays : List (List ℚ)) :
    Except MatrixError MatrixN :=
  match arrayOfArrays with
  | [] => .error .shapeMismatch
  | first :: _ =>
      MatrixN.make arrayOfArrays.length first.length
        (some (.nested arrayOfArrays))

/-- `MatrixN.identity(size)`: zero matrix from the constructor (which throws
for `size = 0`), then ones on the diagonal. -/
def MatrixN.identityM (size : Nat) : Except MatrixError MatrixN :=
  if size = 0 then .error .invalidDimension
  else .ok ⟨size, size, mkElems size size (fun i j => if i = j then 1 else 0)⟩

/-- `MatrixN.zeros(rows, cols)`: plain constructor call. -/
def MatrixN.zeros (rows cols : Nat) : Except MatrixError MatrixN :=
  MatrixN.make rows cols none

/-- `MatrixN.ones(rows, cols)`: constructor then `fill(1)`. -/
def MatrixN.ones (rows cols : Nat) : Except MatrixError MatrixN :=
  if rows = 0 ∨ cols = 0 then .error .invalidDimension
  else .ok ⟨rows, cols, List.replicate (rows * cols) 1⟩

/-- `MatrixN.fill(rows, cols, value)`. -/
def MatrixN.fill (rows cols : Nat) (value : ℚ) : Except MatrixError MatrixN :=
  if rows = 0 ∨ cols = 0 then .error .invalidDimension
  else .ok ⟨rows, cols, List.replicate (rows * cols) value⟩

/-- Bulk `set(values)`: whole-buffer replacement with its length check. -/
def MatrixN.setAll (A : MatrixN) (values : List ℚ) :
    Except MatrixError MatrixN :=
  if values.length ≠ A.elements.length then .error .lengthMismatch
  else .ok ⟨A.rows, A.cols, values⟩

/-- `clone()`: fresh matrix with a copy of the buffer. -/
def MatrixN.clone (A : MatrixN) : MatrixN :=
  ⟨A.rows, A.cols, A.elements⟩

/-- `add(other)`: same-dimension check, then element-wise sum over the flat
buffers (`result.elements[i] = this.elements[i] + other.elements[i]`). -/
def MatrixN.add (A B : MatrixN) : Except MatrixError MatrixN :=
  if A.rows ≠ B.rows ∨ A.cols ≠ B.cols then .error .dimensionMismatch
  else .ok ⟨A.rows, A.cols, List.zipWith (· + ·) A.elements B.elements⟩

/-- `addSelf(other)`: in-place variant of `add`; the value of the mutated
receiver is returned. -/
def MatrixN.addSelf (A B : MatrixN) : Except MatrixError MatrixN :=
  if A.rows ≠ B.rows ∨ A.cols ≠ B.cols then .error .dimensionMismatch
  else .ok ⟨A.rows, A.cols, List.zipWith (· + ·) A.elements B.elements⟩

/-- `subtract(other)`. -/
def MatrixN.subtract (A B : MatrixN) : Except MatrixError MatrixN :=
  if A.rows ≠ B.rows ∨ A.cols ≠ B.cols then .error .dimensionMismatch
  else .ok ⟨A.rows, A.cols, List.zipWith (· - ·) A.elements B.elements⟩

/-- `multiplyScalar(scalar)`. -/
def MatrixN.multiplyScalar (A : MatrixN) (scalar : ℚ) : MatrixN :=
  ⟨A.rows, A.cols, A.elements.map (fun x => x * scalar)⟩

/-- `divideScalar(scalar)` with its zero check. -/
def MatrixN.divideScalar (A : MatrixN) (scalar : ℚ) :
    Except MatrixError MatrixN :=
  if scalar = 0 then .error .divisionByZero
  else .ok ⟨A.rows, A.cols, A.elements.map (fun x => x / scalar)⟩

/-- `multiply(other)`: `A.cols == B.rows` check, then the triple loop writing
`result.elements[i * other.cols + j] = Σ_k this(i,k) * other(k,j)`; the inner
accumulation loop over `k` is the sum of the mapped range. -/
def MatrixN.multiply (A B : MatrixN) : Except MatrixError MatrixN :=
  if A.cols ≠ B.rows then .error .dimensionMismatch
  else .ok ⟨A.rows, B.cols, mkElems A.rows B.cols (fun i j =>
    ((List.range A.cols).map (fun k => A.get i k * B.get k j)).sum)⟩

/-- `transpose()`: fresh `cols × rows` matrix with
`result.elements[j * this.rows + i] = this.elements[i * this.cols + j]`. -/
def MatrixN.transpose (A : MatrixN) : MatrixN :=
  ⟨A.cols, A.rows, mkElems A.cols A.rows (fun j i => A.get i j)⟩

theorem mkElems_length (rows cols : Nat) (f : Nat → Nat → ℚ) :
    (mkElems rows cols f).length = rows * cols := by
  simp [mkElems]

theorem mkElems_getD (rows cols : Nat) (f : Nat → Nat → ℚ) (i j : Nat)
    (hi : i < rows) (hj : j < cols) :
    (mkElems rows cols f).getD (i * cols + j) 0 = f i j := by
  have hcp : 0 < cols := by omega
  have hk : i * cols + j < rows * cols := by
    have h1 : i * cols + j < i * cols + cols := by omega
    have h2 : i * cols + cols = (i + 1) * cols := by ring
    have h3 : (i + 1) * cols ≤ rows * cols := Nat.mul_le_mul_right _ hi
    omega
  have hlen : i * cols + j < (mkElems rows cols f).length := by
    rw [mkElems_length]; exact hk
  rw [List.getD_eq_getElem _ _ hlen]
  simp only [mkElems, List.getElem_ofFn]
  congr 1
  · rw [Nat.add_comm, Nat.add_mul_div_right _ _ hcp, Nat.div_eq_of_lt hj]
    omega
  · rw [Nat.add_comm, Nat.add_mul_mod_self_right, Nat.mod_eq_of_lt hj]

/-- Reading an entry of a matrix assembled via `mkElems`. -/
theorem get_mkElems (n rows cols : Nat) (f : Nat → Nat → ℚ) (i j : Nat)
    (hi : i < rows) (hj : j < cols) :
    (MatrixN.mk n cols (mkElems rows cols f)).get i j = f i j := by
  unfold MatrixN.get
  exact mkElems_getD rows cols f i j hi hj

/-!
LU decomposition (`luDecomposition`, Crout's method, no pivoting).

The source loop iterates over columns `j` and, within a column, over rows
`i`; each entry of `L` (strictly below the diagonal) and of `U` (on or above
the diagonal) is written exactly once, and every read performed while
computing an entry reads an entry written earlier (entries of `L` in columns
`< j`, entries of `U` higher up in column `j`, or the identity/zero seeds).
The final matrices are therefore the unique solution of the Crout
recurrences, which `Lentry`/`Uentry` state directly (recursion on `i + j`).
-/

mutual

/-- Entry (i, j) of `L`: identity seed on and above the diagonal, and below
it `L[i][j] = (A[i][j] - Σ_{k<j} L[i][k]·U[k][j]) / U[j][j]`. -/
def Lentry (A : MatrixN) (i j : Nat) : ℚ :=
  if _h : i = j then 1
  else if _h2 : i < j then 0
  else (A.get i j -
      ((List.range j).attach.map
        (fun k => Lentry A i k.val * Uentry A k.val j)).sum) / Uentry A j j
termination_by i + j
decreasing_by
  · have := List.mem_range.mp k.property
    omega
  · have := List.mem_range.mp k.property
    omega
  · omega

/-- Entry (i, j) of `U`: zero seed below the diagonal, and on/above it
`U[i][j] = A[i][j] - Σ_{k<i} L[i][k]·U[k][j]`. -/
def Uentry (A : MatrixN) (i j : Nat) : ℚ :=
  if _h : j < i then 0
  else A.get i j -
      ((List.range i).attach.map
        (fun k => Lentry A i k.val * Uentry A k.val j)).sum
termination_by i + j
decreasing_by
  · have := List.mem_range.mp k.property
    omega
  · have := List.mem_range.mp k.property
    omega

end

/-- `luDecomposition()`: seeds `L = identity(n)` and `U = zeros(n, n)` —
whose constructors throw for `n = 0` — then runs the Crout column/row loop;
the resulting buffers hold the `Lentry`/`Uentry` values. -/
def MatrixN.luDecomposition (A : MatrixN) :
    Except MatrixError (MatrixN × MatrixN) :=
  if A.rows = 0 then .error .invalidDimension
  else .ok
    (⟨A.rows, A.rows, mkElems A.rows A.rows (fun i j => Lentry A i j)⟩,
     ⟨A.rows, A.rows, mkElems A.rows A.rows (fun i j => Uentry A i j)⟩)

/-- `determinant()`: square check, closed forms for n = 1, 2, 3 over the flat
buffer `m = this.elements`, and for larger n the product of the diagonal of
`U` from the LU decomposition (`det *= U.getElement(i, i)` in a loop). -/
def MatrixN.determinant (A : MatrixN) : Except MatrixError ℚ :=
  if A.isSquare then
    let n := A.rows
    let m := fun k => A.elements.getD k 0
    if n = 1 then .ok (m 0)
    else if n = 2 then .ok (m 0 * m 3 - m 1 * m 2)
    else if n = 3 then .ok
      (m 0 * (m 4 * m 8 - m 5 * m 7) -
       m 1 * (m 3 * m 8 - m 5 * m 6) +
       m 2 * (m 3 * m 7 - m 4 * m 6))
    else
      match A.luDecomposition with
      | .error e => .error e
      | .ok (_, U) =>
          .ok (((List.range n).map (fun i => U.get i i)).prod)
  else .error .notSquare

/-- `minor(r, c)`: square check, fresh `(rows-1) × (cols-1)` matrix from
`MatrixN.zeros` (whose constructor validation throws for a 1×1 source), then
the copy loop over the kept rows/columns; `ri`/`ci` are the enumeration
indices of the kept row/column lists, and each write goes through the
bounds-checked `setElement`. -/
def MatrixN.minor (A : MatrixN) (r c : Nat) : Except MatrixError MatrixN :=
  if A.isSquare then
    match MatrixN.zeros (A.rows - 1) (A.cols - 1) with
    | .error e => .error e
    | .ok init =>
        (((List.range A.rows).filter (fun i => i ≠ r)).enum).foldlM
          (fun m p =>
            (((List.range A.cols).filter (fun j => j ≠ c)).enum).foldlM
              (fun m2 q => m2.setElementE p.1 q.1 (A.get p.2 q.2)) m)
          init
  else .error .notSquare

/-- Forward-substitution value `y_i` solving `L · y = b` column-wise, as the
source's loop `sum = inv[i][col] - Σ_{k<i} L[i][k]·inv[k][col];
inv[i][col] = sum / L[i][i]` (recursion on the row index). -/
def forwardSub (L : MatrixN) (b : Nat → ℚ) (i : Nat) : ℚ :=
  (b i -
      ((List.range i).attach.map
        (fun k => L.get i k.val * forwardSub L b k.val)).sum) / L.get i i
termination_by i
decreasing_by
  exact List.mem_range.mp k.property

/-- Back-substitution value `x_i` solving `U · x = y` column-wise, as the
source's loop `sum = inv[i][col] - Σ_{k>i} U[i][k]·inv[k][col];
inv[i][col] = sum / U[i][i]` (recursion downward from row `n - 1`). -/
def backSub (U : MatrixN) (n : Nat) (y : Nat → ℚ) (i : Nat) : ℚ :=
  (y i -
      ((List.range' (i + 1) (n - (i + 1))).attach.map
        (fun k => U.get i k.val * backSub U n y k.val)).sum) / U.get i i
termination_by n - i
decreasing_by
  have := List.mem_range'_1.mp k.property
  omega

/-- The `n > 3` tail of `invert()`: LU decomposition (`identity(n)` seed for
the running inverse supplies the standard-basis right-hand sides), then one
forward and one backward substitution per column, assembling the inverse
column by column.  No determinant is computed and no singularity check is
performed on this path. -/
def MatrixN.invertLU (A : MatrixN) : Except MatrixError MatrixN :=
  match A.luDecomposition with
  | .error e => .error e
  | .ok (L, U) =>
      .ok ⟨A.rows, A.rows, mkElems A.rows A.rows (fun i col =>
        backSub U A.rows
          (fun r => forwardSub L (fun s => if s = col then 1 else 0) r) i)⟩

/-- `invert()`: square check; for `n ≤ 3` the determinant is computed first
and `|det| < 1e-10` fails with `singularMatrix`, then the closed-form
adjugate-over-determinant formulas; for `n > 3` (and, in the source's
fall-through, for any `n ≤ 3` not equal to 1, 2 or 3) inversion proceeds by
LU substitution without any singularity check. -/
def MatrixN.invert (A : MatrixN) : Except MatrixError MatrixN :=
  if A.isSquare then
    let n := A.rows
    let m := fun k => A.elements.getD k 0
    if n ≤ 3 then
      match A.determinant with
      | .error e => .error e
      | .ok det =>
          if |det| < 1 / 10 ^ 10 then .error .singularMatrix
          else
            let invDet := 1 / det
            if n = 1 then .ok ⟨1, 1, [invDet * m 0]⟩
            else if n = 2 then .ok ⟨2, 2,
              [m 3 * invDet, -m 1 * invDet, -m 2 * invDet, m 0 * invDet]⟩
            else if n = 3 then .ok ⟨3, 3,
              [(m 4 * m 8 - m 5 * m 7) * invDet,
               (m 2 * m 7 - m 1 * m 8) * invDet,
               (m 1 * m 5 - m 2 * m 4) * invDet,
               (m 5 * m 6 - m 3 * m 8) * invDet,
               (m 0 * m 8 - m 2 * m 6) * invDet,
               (m 2 * m 3 - m 0 * m 5) * invDet,
               (m 3 * m 7 - m 4 * m 6) * invDet,
               (m 1 * m 6 - m 0 * m 7) * invDet,
               (m 0 * m 4 - m 1 * m 3) * invDet]⟩
            else A.invertLU
    else A.invertLU
  else .error .notSquare

/-!
Rank (`rank()`, Gaussian elimination with partial pivoting on a clone).

The four steps of one column iteration — pivot search, row swap, pivot-row
normalization, elimination below — are factored out; `MatrixN.rank` drives
them with the source's `for (col = 0; col < cols && row < rows; col++)` loop
(a fold over all columns whose body is the identity once `row` reaches
`rows`, which is how the conjunction in the loop condition behaves), and
`MatrixN.rankSpec` drives the same steps with the spec's "for each column,
while rows remain" control structure.
-/

/-- Pivot search: `pivot = row`, then for each `r` in `row+1 .. rows-1`,
`pivot = r` when `|copy[r][col]| > |copy[pivot][col]|`. -/
def pivotSearch (copy : MatrixN) (col row : Nat) : Nat :=
  (List.range' (row + 1) (copy.rows - (row + 1))).foldl
    (fun p r => if |copy.get r col| > |copy.get p col| then r else p) row

/-- Row swap via the three-assignment temp loop over every column. -/
def swapRowsF (m : MatrixN) (row pivot : Nat) : MatrixN :=
  (List.range m.cols).foldl
    (fun m2 c =>
      let temp := m2.get row c
      ((m2.setE row c (m2.get pivot c)).setE pivot c temp))
    m

/-- Pivot-row normalization: `copy[row][c] /= pivotVal` for
`c = col .. cols-1`, with `pivotVal` read once before the loop. -/
def normalizeRow (m : MatrixN) (row col : Nat) (pv : ℚ) : MatrixN :=
  (List.range' col (m.cols - col)).foldl
    (fun m2 c => m2.setE row c (m2.get row c / pv)) m

/-- Elimination below the pivot row: for each lower row `r`, read
`factor = copy[r][col]`, then `copy[r][c] -= factor * copy[row][c]` for
`c = col .. cols-1`. -/
def eliminateBelow (m : MatrixN) (row col : Nat) : MatrixN :=
  (List.range' (row + 1) (m.rows - (row + 1))).foldl
    (fun m2 r =>
      let factor := m2.get r col
      (List.range' col (m.cols - col)).foldl
        (fun m3 c => m3.setE r c (m3.get r c - factor * m3.get row c)) m2)
    m

/-- One column iteration of the rank loop on state (copy, row cursor, rank
counter). -/
def rankColumn (st : MatrixN × Nat × Nat) (col : Nat) : MatrixN × Nat × Nat :=
  let copy := st.1
  let row := st.2.1
  let rk := st.2.2
  if copy.rows ≤ row then st
  else
    let pivot := pivotSearch copy col row
    if |copy.get pivot col| < 1 / 10 ^ 12 then st
    else
      let c1 := if pivot ≠ row then swapRowsF copy row pivot else copy
      let pv := c1.get row col
      let c2 := normalizeRow c1 row col pv
      let c3 := eliminateBelow c2 row col
      (c3, row + 1, rk + 1)

/-- `rank()`: clone the receiver, fold the column iteration over all
columns, return the final rank counter. -/
def MatrixN.rank (A : MatrixN) : Nat :=
  ((List.range A.cols).foldl rankColumn (A.clone, 0, 0)).2.2

/-- Modelled from the spec's words (section 4.4, Rank): "For each column,
while rows remain: select the pivot row with max absolute value in that
column among remaining rows; if the pivot's absolute value is below `1e-12`,
skip the column without incrementing rank or row cursor; otherwise swap
pivot row into place, normalize the pivot row (divide by pivot value),
eliminate the column's entries in all rows below by row-reduction, then
advance both row cursor and rank counter", returning the final rank
counter. -/
def rankSpecGo (cols rows : Nat) (copy : MatrixN) (col row rk : Nat) : Nat :=
  if h : cols ≤ col then rk
  else if rows ≤ row then rk
  else
    let pivot := pivotSearch copy col row
    if |copy.get pivot col| < 1 / 10 ^ 12 then
      rankSpecGo cols rows copy (col + 1) row rk
    else
      let c1 := if pivot ≠ row then swapRowsF copy row pivot else copy
      let pv := c1.get row col
      let c2 := normalizeRow c1 row col pv
      let c3 := eliminateBelow c2 row col
      rankSpecGo cols rows c3 (col + 1) (row + 1) (rk + 1)
termination_by cols - col
decreasing_by
  · omega
  · omega

/-- Modelled from the spec: rank via Gaussian elimination with partial
pivoting "on a private copy", per the description in section 4.4. -/
def MatrixN.rankSpec (A : MatrixN) : Nat :=
  rankSpecGo A.cols A.rows A.clone 0 0 0

/-!
Text and structured serialization (`toString`, `parse`, `toJSON`,
`fromJSON`).
-/

/-- Three-digit zero padding of the fractional part (`m < 1000`). -/
def pad3 (m : Nat) : String :=
  if m < 10 then ("00") ++ Nat.repr m
  else if m < 100 then ("0") ++ Nat.repr m
  else Nat.repr m

/-- JS `Number.prototype.toFixed(3)`: sign split, then the magnitude scaled
by 1000 and rounded to the nearest integer (ties away from zero), printed
with exactly three fraction digits.  Exact on every value whose magnitude
times 1000 is representable, in particular on all values appearing in the
theorems below. -/
def toFixed3 (q : ℚ) : String :=
  let sgn := if q < 0 then ("-") else ("")
  let n : ℤ := ⌊|q| * 1000 + 1 / 2⌋
  sgn ++ Nat.repr (n / 1000).toNat ++ (".") ++ pad3 (n % 1000).toNat

/-- `toString()`: each row rendered as `[v1, v2, ...]` with `toFixed(3)`
values, rows joined by newlines, no trailing newline. -/
def MatrixN.toString (A : MatrixN) : String :=
  String.intercalate ("\n")
    ((List.range A.rows).map (fun i =>
      ("[") ++
        String.intercalate (", ")
          ((List.range A.cols).map (fun j => toFixed3 (A.get i j))) ++
      ("]")))

/-- JS `String.prototype.split(",")` on a character list: splits at every
separator occurrence; the empty string yields one empty segment. -/
def splitOnChar (sep : Char) (cs : List Char) : List (List Char) :=
  cs.foldr
    (fun c acc =>
      if c == sep then [] :: acc
      else
        match acc with
        | [] => [[c]]
        | g :: gs => (c :: g) :: gs)
    [[]]

/-- JS `String.prototype.trim()` on a character list. -/
def trimChars (cs : List Char) : List Char :=
  ((cs.dropWhile Char.isWhitespace).reverse.dropWhile Char.isWhitespace).reverse

/-- Numeric value of a digit run. -/
def digitsVal (ds : List Char) : Nat :=
  ds.foldl (fun a c => a * 10 + (c.toNat - 48)) 0

/-- JS `Number.parseFloat` on a character list: skips leading whitespace,
reads an optional sign, an integer digit run, and an optional `.` followed by
a fraction digit run, stopping at the first character that fits neither
(exponent notation is not modeled — no input in this development contains
one); returns `none` (JS `NaN`) when no digit was read. -/
def parseFloatQ (s : List Char) : Option ℚ :=
  let cs := s.dropWhile Char.isWhitespace
  let sign : ℚ := if cs.head? = some ('-') ∨ cs.head? = some ('+') then
      (if cs.head? = some ('-') then -1 else 1) else 1
  let cs1 := if cs.head? = some ('-') ∨ cs.head? = some ('+') then cs.tail else cs
  let intDigits := cs1.takeWhile Char.isDigit
  let cs2 := cs1.dropWhile Char.isDigit
  let fracDigits :=
    if cs2.head? = some ('.') then cs2.tail.takeWhile Char.isDigit else []
  if intDigits.isEmpty ∧ fracDigits.isEmpty then none
  else some (sign *
    ((digitsVal intDigits : ℚ) +
      (digitsVal fracDigits : ℚ) / (10 : ℚ) ^ fracDigits.length))

/-- The element extraction of `MatrixN.parse(str)`: strip all `[`/`]`
characters, split on commas, trim and `parseFloat` each segment (a segment
that parses to `NaN` is modeled as 0 — no theorem below exercises that
case). -/
def parseElems (str : String) : List ℚ :=
  (splitOnChar (',') (str.toList.filter
    (fun ch => ch != ('[') && ch != (']')))).map
    (fun seg => (parseFloatQ (trimChars seg)).getD 0)

/-- `MatrixN.parse(str)`: extract the elements, require their count to be a
perfect square (`Math.sqrt` + `Number.isInteger`), and build the square
matrix through the constructor. -/
def MatrixN.parse (str : String) : Except MatrixError MatrixN :=
  let elements := parseElems str
  let size := Nat.sqrt elements.length
  if size * size = elements.length then
    MatrixN.make size size (some (.flat elements))
  else .error .notSquareString

/-- The JSON object `{rows, cols, elements}` produced by `toJSON()`.  The
field types record the `typeof` checks of `fromJSON` (numbers for `rows` and
`cols`, an array for `elements`). -/
structure MatrixJSON where
  rows : Nat
  cols : Nat
  elements : List ℚ
deriving DecidableEq

/-- `toJSON()`. -/
def MatrixN.toJSON (A : MatrixN) : MatrixJSON :=
  ⟨A.rows, A.cols, A.elements⟩

/-- `MatrixN.fromJSON(json)`: rejects an empty `elements` array (the
missing/non-array/non-number cases of the source's check are unexpressible
in the typed model), then delegates to the constructor with flat data. -/
def MatrixN.fromJSON (json : MatrixJSON) : Except MatrixError MatrixN :=
  if json.elements.length = 0 then .error .invalidFormat
  else MatrixN.make json.rows json.cols (some (.flat json.elements))

/-!
Buffer-aliasing model for the frame property of `rank()`.

`rank()` is the one operation whose contract explicitly promises not to
modify the receiver while mutating a buffer.  To make that promise
non-vacuous, the method call is also modeled over an explicit heap of
buffers: matrices are references `(rows, cols, buffer id)`, `clone()`
allocates a fresh buffer (`new Float32Array` + copy), and all element writes
of the elimination loop target the clone's buffer — coalesced here into one
buffer update with the loop's final contents.  Had the source mutated
`this.elements` instead of the clone, the receiver's cell would change and
the frame theorem below would fail.
-/

/-- A heap of element buffers, addressed by allocation index. -/
structure Heap where
  bufs : List (List ℚ)

/-- A matrix value as the JS object holds it: dimensions plus a reference to
its element buffer. -/
structure MatRef where
  rows : Nat
  cols : Nat
  buf : Nat

/-- Buffer lookup. -/
def Heap.readBuf (h : Heap) (b : Nat) : List ℚ :=
  h.bufs.getD b []

/-- Buffer overwrite. -/
def Heap.writeBuf (h : Heap) (b : Nat) (data : List ℚ) : Heap :=
  ⟨h.bufs.set b data⟩

/-- Fresh-buffer allocation (`new Float32Array(...)`). -/
def Heap.alloc (h : Heap) (data : List ℚ) : Heap × Nat :=
  (⟨h.bufs ++ [data]⟩, h.bufs.length)

/-- The matrix value a reference denotes in a heap. -/
def MatRef.value (A : MatRef) (h : Heap) : MatrixN :=
  ⟨A.rows, A.cols, h.readBuf A.buf⟩

/-- `clone()` at heap level: allocate a fresh buffer holding a copy of the
receiver's elements. -/
def cloneRef (h : Heap) (A : MatRef) : Heap × MatRef :=
  let p := h.alloc (h.readBuf A.buf)
  (p.1, ⟨A.rows, A.cols, p.2⟩)

/-- The `rank()` method call at heap level: clone the receiver, run the
elimination loop on the clone (all of whose element writes land in the
clone's buffer), and return the rank counter together with the post-call
heap. -/
def rankMethod (h : Heap) (A : MatRef) : Nat × Heap :=
  let p := cloneRef h A
  let final := (List.range A.cols).foldl rankColumn (p.2.value p.1, 0, 0)
  (final.2.2, p.1.writeBuf p.2.buf final.1.elements)

/-!
General helper lemmas.
-/

/-- The accumulation loop `for k: sum += f k` as a `Finset` sum. -/
theorem sum_map_range_eq (f : Nat → ℚ) (n : Nat) :
    ((List.range n).map f).sum = ∑ k in Finset.range n, f k := by
  induction n with
  | zero => simp
  | succ n ih =>
      rw [List.range_succ, Finset.sum_range_succ, List.map_append,
        List.sum_append, ih]
      simp

/-- Attached version of the previous lemma, matching the recursive sums in
`Lentry`/`Uentry`/`forwardSub`. -/
theorem sum_attach_range_eq (f : Nat → ℚ) (n : Nat) :
    ((List.range n).attach.map (fun k => f k.val)).sum =
      ∑ k in Finset.range n, f k := by
  rw [List.attach_map_val]
  exact sum_map_range_eq f n

/-- Fold invariant principle. -/
theorem foldl_invariant {α σ : Type} (f : σ → α → σ) (P : σ → Prop)
    (l : List α) (init : σ) (h0 : P init)
    (hstep : ∀ s a, P s → P (f s a)) : P (l.foldl f init) := by
  induction l generalizing init with
  | nil => exact h0
  | cons x xs ih => exact ih _ (hstep _ _ h0)

/-- `Uentry` on or above the diagonal, with the sum in `Finset` form. -/
theorem Uentry_eq_of_le (A : MatrixN) (i j : Nat) (h : i ≤ j) :
    Uentry A i j =
      A.get i j - ∑ k in Finset.range i, Lentry A i k * Uentry A k j := by
  rw [Uentry, dif_neg (by omega)]
  rw [sum_attach_range_eq (fun k => Lentry A i k * Uentry A k j) i]

/-- `Uentry` strictly below the diagonal is the zero seed. -/
theorem Uentry_eq_of_gt (A : MatrixN) (i j : Nat) (h : j < i) :
    Uentry A i j = 0 := by
  rw [Uentry, dif_pos h]

/-- `Lentry` on the diagonal is the identity seed. -/
theorem Lentry_diag (A : MatrixN) (i : Nat) : Lentry A i i = 1 := by
  rw [Lentry, dif_pos rfl]

/-- `Lentry` strictly above the diagonal is the identity seed. -/
theorem Lentry_eq_of_lt (A : MatrixN) (i j : Nat) (h : i < j) :
    Lentry A i j = 0 := by
  rw [Lentry, dif_neg (by omega), dif_pos h]

/-- `Lentry` strictly below the diagonal, with the sum in `Finset` form. -/
theorem Lentry_eq_of_gt (A : MatrixN) (i j : Nat) (h : j < i) :
    Lentry A i j =
      (A.get i j - ∑ k in Finset.range j, Lentry A i k * Uentry A k j) /
        Uentry A j j := by
  rw [Lentry, dif_neg (by omega), dif_neg (by omega)]
  rw [sum_attach_range_eq (fun k => Lentry A i k * Uentry A k j) j]

/-- Crout recombination: when every pivot used in a division is nonzero,
summing `L[i][k]·U[k][j]` over a full row/column of the factors recovers the
original entry. -/
theorem lu_recomb (A : MatrixN) (n : Nat)
    (hpiv : ∀ j, j + 1 < n → Uentry A j j ≠ 0)
    (i j : Nat) (hi : i < n) (hj : j < n) :
    ∑ k in Finset.range n, Lentry A i k * Uentry A k j = A.get i j := by
  by_cases hij : i ≤ j
  · have hsub : Finset.range (i + 1) ⊆ Finset.range n :=
      Finset.range_subset.mpr (by omega)
    have hzero : ∀ k ∈ Finset.range n, k ∉ Finset.range (i + 1) →
        Lentry A i k * Uentry A k j = 0 := by
      intro k _ hk2
      have hik : i < k := by
        simp only [Finset.mem_range] at hk2
        omega
      rw [Lentry_eq_of_lt A i k hik, zero_mul]
    rw [← Finset.sum_subset hsub hzero, Finset.sum_range_succ,
      Lentry_diag, one_mul, Uentry_eq_of_le A i j hij]
    ring
  · have hji : j < i := by omega
    have hsub : Finset.range (j + 1) ⊆ Finset.range n :=
      Finset.range_subset.mpr (by omega)
    have hzero : ∀ k ∈ Finset.range n, k ∉ Finset.range (j + 1) →
        Lentry A i k * Uentry A k j = 0 := by
      intro k _ hk2
      have : j < k := by simp only [Finset.mem_range] at hk2; omega
      rw [Uentry_eq_of_gt A k j this, mul_zero]
    have hU : Uentry A j j ≠ 0 := hpiv j (by omega)
    rw [← Finset.sum_subset hsub hzero, Finset.sum_range_succ,
      Lentry_eq_of_gt A i j hji, div_mul_cancel₀ _ hU]
    ring

/-- A row-major buffer is determined by its `get` values. -/
theorem elements_eq_mkElems (A : MatrixN) (n : Nat)
    (hc : A.cols = n) (hlen : A.elements.length = n * n) (g : Nat → Nat → ℚ)
    (hg : ∀ i j, i < n → j < n → g i j = A.get i j) :
    mkElems n n g = A.elements := by
  apply List.ext_getElem
  · rw [mkElems_length, hlen]
  · intro k h1 h2
    rw [mkElems_length] at h1
    have hn : 0 < n := by
      rcases Nat.eq_zero_or_pos n with h | h
      · subst h
        omega
      · exact h
    have hdiv : k / n < n := Nat.div_lt_of_lt_mul h1
    have hmod : k % n < n := Nat.mod_lt _ hn
    simp only [mkElems, List.getElem_ofFn]
    rw [hg _ _ hdiv hmod]
    unfold MatrixN.get
    rw [hc]
    have hk : k / n * n + k % n = k := by
      rw [Nat.mul_comm (k / n) n]
      exact Nat.div_add_mod k n
    rw [hk, List.getD_eq_getElem A.elements 0 h2]

/-- C3: for every (well-formed) square matrix whose Crout pivots used in a
division are nonzero, `luDecomposition()` returns `(L, U)` with `L`
lower-unit-triangular, `U` upper-triangular, and `L · U = A` in exact
arithmetic. -/
theorem luDecomposition_correct :
    ∀ A L U : MatrixN, A.wf → A.isSquare = true →
      (∀ j, j + 1 < A.rows → Uentry A j j ≠ 0) →
      A.luDecomposition = Except.ok (L, U) →
      (∀ i, i < A.rows → L.get i i = 1) ∧
      (∀ i j, i < j → j < A.rows → L.get i j = 0) ∧
      (∀ i j, j < i → i < A.rows → U.get i j = 0) ∧
      L.multiply U = Except.ok A := by
  intro A L U hwf hsq hpiv hlu
  obtain ⟨hr1, hc1, hlen⟩ := hwf
  have hsq' : A.rows = A.cols := by
    simpa [MatrixN.isSquare] using hsq
  have hn0 : ¬ A.rows = 0 := by omega
  unfold MatrixN.luDecomposition at hlu
  rw [if_neg hn0] at hlu
  simp only [Except.ok.injEq, Prod.mk.injEq] at hlu
  obtain ⟨hL, hU⟩ := hlu
  subst hL
  subst hU
  refine ⟨?_, ?_, ?_, ?_⟩
  · intro i hi
    rw [get_mkElems A.rows A.rows A.rows _ i i hi hi, Lentry_diag]
  · intro i j hij hj
    rw [get_mkElems A.rows A.rows A.rows _ i j (by omega) hj,
      Lentry_eq_of_lt A i j hij]
  · intro i j hji hi
    rw [get_mkElems A.rows A.rows A.rows _ i j hi (by omega),
      Uentry_eq_of_gt A i j hji]
  · unfold MatrixN.multiply
    rw [if_neg (by simp)]
    simp only [Except.ok.injEq]
    have helems : mkElems A.rows A.rows (fun i j =>
        ((List.range A.rows).map (fun k =>
          (MatrixN.mk A.rows A.rows
            (mkElems A.rows A.rows (fun i j => Lentry A i j))).get i k *
          (MatrixN.mk A.rows A.rows
            (mkElems A.rows A.rows (fun i j => Uentry A i j))).get k j)).sum)
        = A.elements := by
      apply elements_eq_mkElems A A.rows hsq'.symm
        (by rw [hlen, ← hsq'])
      intro i j hi hj
      rw [sum_map_range_eq]
      rw [← lu_recomb A A.rows hpiv i j hi hj]
      apply Finset.sum_congr rfl
      intro k hk
      have hkn : k < A.rows := Finset.mem_range.mp hk
      rw [get_mkElems A.rows A.rows A.rows _ i k hi hkn,
        get_mkElems A.rows A.rows A.rows _ k j hkn hj]
    cases A with
    | mk ar ac ae =>
        simp only at hsq' helems ⊢
        rw [helems, hsq']

/-- Concrete input for the C3 witness. -/
def c3A : MatrixN := ⟨2, 2, [4, 3, 6, 3]⟩

/-- Its Crout `L` factor. -/
def c3L : MatrixN := ⟨2, 2, mkElems 2 2 (fun i j => Lentry c3A i j)⟩

/-- Its Crout `U` factor. -/
def c3U : MatrixN := ⟨2, 2, mkElems 2 2 (fun i j => Uentry c3A i j)⟩

theorem luDecomposition_correct_witness :
    (∀ i, i < c3A.rows → c3L.get i i = 1) ∧
    (∀ i j, i < j → j < c3A.rows → c3L.get i j = 0) ∧
    (∀ i j, j < i → i < c3A.rows → c3U.get i j = 0) ∧
    c3L.multiply c3U = Except.ok c3A :=
  luDecomposition_correct c3A c3L c3U (by decide) (by decide)
    (by
      intro j hj
      have hr2 : c3A.rows = 2 := rfl
      have hj0 : j = 0 := by omega
      subst hj0
      rw [Uentry_eq_of_le c3A 0 0 (le_refl 0)]
      rw [Finset.sum_range_zero]
      norm_num [c3A, MatrixN.get])
    rfl

/-- C2: `determinant()` throws `NotSquare` on non-square input; on square
input it returns the single element for n = 1, `ad − bc` for n = 2, the
3-term first-row cofactor expansion for n = 3 (including the concrete value
−2 on `MatrixN(2,2,[1,2,3,4])`), and for n ≥ 4 the product of the diagonal
of `U` from the no-pivot Crout LU decomposition. -/
theorem determinant_spec :
    (∀ A : MatrixN, A.isSquare = false →
      A.determinant = Except.error MatrixError.notSquare) ∧
    (∀ a : ℚ, (MatrixN.mk 1 1 [a]).determinant = Except.ok a) ∧
    (∀ a b c d : ℚ, (MatrixN.mk 2 2 [a, b, c, d]).determinant =
      Except.ok (a * d - b * c)) ∧
    (∀ a b c d e f g h i : ℚ,
      (MatrixN.mk 3 3 [a, b, c, d, e, f, g, h, i]).determinant =
        Except.ok (a * (e * i - f * h) - b * (d * i - f * g) +
          c * (d * h - e * g))) ∧
    (∀ A L U : MatrixN, A.isSquare = true → 4 ≤ A.rows →
      A.luDecomposition = Except.ok (L, U) →
      A.determinant =
        Except.ok (((List.range A.rows).map (fun i => U.get i i)).prod)) ∧
    (MatrixN.mk 2 2 [1, 2, 3, 4]).determinant = Except.ok (-2) := by
  refine ⟨?_, ?_, ?_, ?_, ?_, ?_⟩
  · intro A h
    unfold MatrixN.determinant
    rw [h]
    rfl
  · intro a
    rfl
  · intro a b c d
    rfl
  · intro a b c d e f g h i
    rfl
  · intro A L U hsq h4 hlu
    unfold MatrixN.determinant
    rw [hsq]
    simp only [if_true]
    rw [if_neg (by omega), if_neg (by omega), if_neg (by omega), hlu]
  · have h1 : (MatrixN.mk 2 2 [1, 2, 3, 4]).determinant =
        Except.ok ((1 : ℚ) * 4 - 2 * 3) := rfl
    rw [h1]
    norm_num

/-- Concrete 4×4 input for the C2 witness (from the repository's tests). -/
def c2A : MatrixN := ⟨4, 4, [2, 0, 0, 0, 0, 4, 0, 0, 0, 0, 1, 1, 0, 0, 0, 1]⟩

/-- Its Crout `L` factor. -/
def c2L : MatrixN := ⟨4, 4, mkElems 4 4 (fun i j => Lentry c2A i j)⟩

/-- Its Crout `U` factor. -/
def c2U : MatrixN := ⟨4, 4, mkElems 4 4 (fun i j => Uentry c2A i j)⟩

theorem determinant_spec_witness :
    (MatrixN.mk 2 3 [0, 0, 0, 0, 0, 0]).determinant =
      Except.error MatrixError.notSquare ∧
    (MatrixN.mk 1 1 [(5 : ℚ)]).determinant = Except.ok 5 ∧
    c2A.determinant =
      Except.ok (((List.range c2A.rows).map (fun i => c2U.get i i)).prod) :=
  ⟨determinant_spec.1 _ rfl, determinant_spec.2.1 5,
    determinant_spec.2.2.2.2.1 c2A c2L c2U rfl (by decide) rfl⟩


/-- C5: `multiply` fails with `DimensionMismatch` exactly when
`A.cols ≠ B.rows`; otherwise it returns an `A.rows × B.cols` matrix whose
(i,j) entry is `Σ_k A(i,k)·B(k,j)`, and on the concrete 2×2 pair of the spec
it returns exactly `[19, 22, 43, 50]`. -/
theorem multiply_spec :
    (∀ A B : MatrixN, A.cols ≠ B.rows →
      A.multiply B = Except.error MatrixError.dimensionMismatch) ∧
    (∀ A B : MatrixN, A.cols = B.rows → ∃ M, A.multiply B = Except.ok M) ∧
    (∀ A B M : MatrixN, A.multiply B = Except.ok M →
      M.rows = A.rows ∧ M.cols = B.cols ∧
      ∀ i j, i < A.rows → j < B.cols →
        M.get i j = ∑ k in Finset.range A.cols, A.get i k * B.get k j) ∧
    (MatrixN.mk 2 2 [1, 2, 3, 4]).multiply (MatrixN.mk 2 2 [5, 6, 7, 8]) =
      Except.ok (MatrixN.mk 2 2 [19, 22, 43, 50]) := by
  refine ⟨?_, ?_, ?_, ?_⟩
  · intro A B h
    unfold MatrixN.multiply
    rw [if_pos h]
  · intro A B h
    refine ⟨⟨A.rows, B.cols, mkElems A.rows B.cols (fun i j =>
      ((List.range A.cols).map (fun k => A.get i k * B.get k j)).sum)⟩, ?_⟩
    unfold MatrixN.multiply
    rw [if_neg (by omega)]
  · intro A B M heq
    unfold MatrixN.multiply at heq
    by_cases h : A.cols ≠ B.rows
    · rw [if_pos h] at heq
      cases heq
    · rw [if_neg h] at heq
      simp only [Except.ok.injEq] at heq
      subst heq
      refine ⟨rfl, rfl, ?_⟩
      intro i j hi hj
      rw [get_mkElems A.rows A.rows B.cols _ i j hi hj]
      rw [sum_map_range_eq]
  · unfold MatrixN.multiply
    norm_num [mkElems, List.ofFn_succ, List.range_succ, MatrixN.get, List.getD]

theorem multiply_spec_witness :
    (MatrixN.mk 2 2 [1, 2, 3, 4]).multiply (MatrixN.mk 3 2 [0, 0, 0, 0, 0, 0]) =
      Except.error MatrixError.dimensionMismatch ∧
    (∃ M, (MatrixN.mk 2 3 [1, 2, 3, 4, 5, 6]).multiply
      (MatrixN.mk 3 2 [7, 8, 9, 10, 11, 12]) = Except.ok M) :=
  ⟨multiply_spec.1 _ _ (by decide), multiply_spec.2.1 _ _ rfl⟩

theorem foldl_dims_invariant {α : Type} (f : MatrixN → α → MatrixN)
    (hf : ∀ s a, (f s a).rows = s.rows ∧ (f s a).cols = s.cols) :
    ∀ (l : List α) (init : MatrixN),
      (l.foldl f init).rows = init.rows ∧ (l.foldl f init).cols = init.cols := by
  intro l
  induction l with
  | nil => intro init; exact ⟨rfl, rfl⟩
  | cons x xs ih =>
      intro init
      rw [List.foldl_cons]
      obtain ⟨h1, h2⟩ := ih (f init x)
      obtain ⟨h3, h4⟩ := hf init x
      exact ⟨h1.trans h3, h2.trans h4⟩

theorem swapRowsF_dims (m : MatrixN) (row pivot : Nat) :
    (swapRowsF m row pivot).rows = m.rows ∧
    (swapRowsF m row pivot).cols = m.cols := by
  unfold swapRowsF
  refine foldl_dims_invariant _ ?_ _ m
  intro s a
  exact ⟨rfl, rfl⟩

theorem normalizeRow_dims (m : MatrixN) (row col : Nat) (pv : ℚ) :
    (normalizeRow m row col pv).rows = m.rows ∧
    (normalizeRow m row col pv).cols = m.cols := by
  unfold normalizeRow
  refine foldl_dims_invariant _ ?_ _ m
  intro s a
  exact ⟨rfl, rfl⟩

theorem eliminateBelow_dims (m : MatrixN) (row col : Nat) :
    (eliminateBelow m row col).rows = m.rows ∧
    (eliminateBelow m row col).cols = m.cols := by
  unfold eliminateBelow
  refine foldl_dims_invariant _ ?_ _ m
  intro s a
  refine foldl_dims_invariant _ ?_ _ s
  intro s2 c
  exact ⟨rfl, rfl⟩

/-- The matrix produced by one advancing column iteration. -/
def rankStepMatrix (copy : MatrixN) (row col : Nat) : MatrixN :=
  eliminateBelow
    (normalizeRow
      (if pivotSearch copy col row ≠ row then
        swapRowsF copy row (pivotSearch copy col row) else copy)
      row col
      ((if pivotSearch copy col row ≠ row then
        swapRowsF copy row (pivotSearch copy col row) else copy).get row col))
    row col

theorem rankStepMatrix_dims (copy : MatrixN) (row col : Nat) :
    (rankStepMatrix copy row col).rows = copy.rows ∧
    (rankStepMatrix copy row col).cols = copy.cols := by
  unfold rankStepMatrix
  obtain ⟨e1, e2⟩ := eliminateBelow_dims
    (normalizeRow
      (if pivotSearch copy col row ≠ row then
        swapRowsF copy row (pivotSearch copy col row) else copy)
      row col
      ((if pivotSearch copy col row ≠ row then
        swapRowsF copy row (pivotSearch copy col row) else copy).get row col))
    row col
  rw [e1, e2]
  obtain ⟨n1, n2⟩ := normalizeRow_dims
    (if pivotSearch copy col row ≠ row then
      swapRowsF copy row (pivotSearch copy col row) else copy)
    row col
    ((if pivotSearch copy col row ≠ row then
      swapRowsF copy row (pivotSearch copy col row) else copy).get row col)
  rw [n1, n2]
  split
  · exact swapRowsF_dims copy row (pivotSearch copy col row)
  · exact ⟨rfl, rfl⟩

theorem rankColumn_skip (copy : MatrixN) (row rk col : Nat)
    (h1 : ¬ copy.rows ≤ row)
    (h2 : |copy.get (pivotSearch copy col row) col| < 1 / 10 ^ 12) :
    rankColumn (copy, row, rk) col = (copy, row, rk) := by
  unfold rankColumn
  dsimp only
  rw [if_neg h1, if_pos h2]

theorem rankColumn_advance (copy : MatrixN) (row rk col : Nat)
    (h1 : ¬ copy.rows ≤ row)
    (h2 : ¬ |copy.get (pivotSearch copy col row) col| < 1 / 10 ^ 12) :
    rankColumn (copy, row, rk) col =
      (rankStepMatrix copy row col, row + 1, rk + 1) := by
  unfold rankColumn rankStepMatrix
  dsimp only
  rw [if_neg h1, if_neg h2]

theorem rankColumn_noop (st : MatrixN × Nat × Nat) (col : Nat)
    (h : st.1.rows ≤ st.2.1) : rankColumn st col = st := by
  unfold rankColumn
  dsimp only
  rw [if_pos h]

theorem fold_noop (l : List Nat) (st : MatrixN × Nat × Nat)
    (h : st.1.rows ≤ st.2.1) : l.foldl rankColumn st = st := by
  induction l with
  | nil => rfl
  | cons x xs ih =>
      rw [List.foldl_cons, rankColumn_noop st x h]
      exact ih

set_option maxHeartbeats 1000000 in
theorem rankSpecGo_stop (C R : Nat) (copy : MatrixN) (col row rk : Nat)
    (hcol : C ≤ col) : rankSpecGo C R copy col row rk = rk := by
  rw [rankSpecGo, dif_pos hcol]

set_option maxHeartbeats 1000000 in
theorem rankSpecGo_rowsdone (C R : Nat) (copy : MatrixN) (col row rk : Nat)
    (hcol : ¬ C ≤ col) (hrow : R ≤ row) :
    rankSpecGo C R copy col row rk = rk := by
  conv_lhs => rw [rankSpecGo]
  rw [dif_neg hcol, if_pos hrow]

set_option maxHeartbeats 1000000 in
theorem rankSpecGo_skip (C R : Nat) (copy : MatrixN) (col row rk : Nat)
    (hcol : ¬ C ≤ col) (hrow : ¬ R ≤ row)
    (h2 : |copy.get (pivotSearch copy col row) col| < 1 / 10 ^ 12) :
    rankSpecGo C R copy col row rk = rankSpecGo C R copy (col + 1) row rk := by
  conv_lhs => rw [rankSpecGo]
  rw [dif_neg hcol, if_neg hrow]
  dsimp only
  rw [if_pos h2]

set_option maxHeartbeats 1000000 in
theorem rankSpecGo_advance (C R : Nat) (copy : MatrixN) (col row rk : Nat)
    (hcol : ¬ C ≤ col) (hrow : ¬ R ≤ row)
    (h2 : ¬ |copy.get (pivotSearch copy col row) col| < 1 / 10 ^ 12) :
    rankSpecGo C R copy col row rk =
      rankSpecGo C R (rankStepMatrix copy row col) (col + 1) (row + 1)
        (rk + 1) := by
  conv_lhs => rw [rankSpecGo]
  rw [dif_neg hcol, if_neg hrow]
  dsimp only
  rw [if_neg h2]
  rfl

theorem rank_fold_eq_go (C R : Nat) :
    ∀ (k col : Nat) (copy : MatrixN) (row rk : Nat),
      copy.rows = R → copy.cols = C → col + k = C →
      ((List.range' col k).foldl rankColumn (copy, row, rk)).2.2 =
        rankSpecGo C R copy col row rk := by
  intro k
  induction k with
  | zero =>
      intro col copy row rk hR hC hck
      rw [rankSpecGo_stop C R copy col row rk (by omega)]
      rfl
  | succ k ih =>
      intro col copy row rk hR hC hck
      have hcol : ¬ C ≤ col := by omega
      rw [List.range'_succ, List.foldl_cons]
      by_cases hrow : R ≤ row
      · rw [rankColumn_noop (copy, row, rk) col (by rw [hR]; exact hrow)]
        rw [fold_noop _ _ (by rw [hR]; exact hrow)]
        rw [rankSpecGo_rowsdone C R copy col row rk hcol hrow]
      · by_cases hpv :
          |copy.get (pivotSearch copy col row) col| < 1 / 10 ^ 12
        · rw [rankColumn_skip copy row rk col (by omega) hpv]
          rw [rankSpecGo_skip C R copy col row rk hcol hrow hpv]
          exact ih (col + 1) copy row rk hR hC (by omega)
        · rw [rankColumn_advance copy row rk col (by omega) hpv]
          rw [rankSpecGo_advance C R copy col row rk hcol hrow hpv]
          obtain ⟨d1, d2⟩ := rankStepMatrix_dims copy row col
          exact ih (col + 1) (rankStepMatrix copy row col) (row + 1) (rk + 1)
            (by rw [d1]; exact hR) (by rw [d2]; exact hC) (by omega)

theorem rank_eq_rankSpec :
    ∀ A : MatrixN, MatrixN.rank A = MatrixN.rankSpec A := by
  intro A
  unfold MatrixN.rank MatrixN.rankSpec
  rw [List.range_eq_range']
  exact rank_fold_eq_go A.cols A.rows A.cols 0 A.clone 0 0 rfl rfl (by omega)

/-- C4: `rank()` computes exactly the pivoted-Gaussian-elimination value the
spec describes (`rankSpec`, written from the spec's section 4.4 wording),
and in particular the rank of `MatrixN(2,2,[1,2,2,4])` is 1. -/
theorem rank_follows_spec :
    (∀ A : MatrixN, MatrixN.rank A = MatrixN.rankSpec A) ∧
    MatrixN.rank (MatrixN.mk 2 2 [1, 2, 2, 4]) = 1 := by
  refine ⟨rank_eq_rankSpec, ?_⟩
  norm_num [MatrixN.rank, MatrixN.clone, rankColumn, pivotSearch, swapRowsF,
    normalizeRow, eliminateBelow, MatrixN.get, MatrixN.setE, List.range_succ,
    List.range', List.getD, List.set, abs]

/-- The 4×4 zero matrix, the C1 counterexample input. -/
def zero4 : MatrixN := ⟨4, 4, List.replicate 16 0⟩

/-- Its `U` factor under the Crout recurrences. -/
def zero4U : MatrixN := ⟨4, 4, mkElems 4 4 (fun i j => Uentry zero4 i j)⟩

theorem zero4_get (i j : Nat) : zero4.get i j = 0 := by
  unfold zero4 MatrixN.get
  rcases Nat.lt_or_ge (i * 4 + j) 16 with h | h
  · rw [List.getD_eq_getElem _ _ (by simpa using h)]
    rw [List.getElem_replicate]
  · rw [List.getD_eq_default _ _ (by simpa using h)]

theorem Uentry_zero4 : ∀ m i j, i + j ≤ m → Uentry zero4 i j = 0 := by
  intro m
  induction m with
  | zero =>
      intro i j h
      have hi : i = 0 := by omega
      have hj : j = 0 := by omega
      subst hi
      subst hj
      rw [Uentry_eq_of_le zero4 0 0 (le_refl 0), Finset.sum_range_zero,
        zero4_get]
      ring
  | succ m ih =>
      intro i j h
      rcases Nat.lt_or_ge j i with hji | hij
      · exact Uentry_eq_of_gt zero4 i j hji
      · rw [Uentry_eq_of_le zero4 i j hij, zero4_get]
        have hz : ∑ k in Finset.range i,
            Lentry zero4 i k * Uentry zero4 k j = 0 := by
          apply Finset.sum_eq_zero
          intro k hk
          have hk2 : k < i := Finset.mem_range.mp hk
          rw [ih k j (by omega), mul_zero]
        rw [hz]
        ring

theorem zero4_det : zero4.determinant = Except.ok 0 := by
  have h0 : zero4.determinant =
      Except.ok (((List.range 4).map (fun i => zero4U.get i i)).prod) := rfl
  rw [h0]
  have hu : ∀ i, i < 4 → zero4U.get i i = 0 := by
    intro i hi
    unfold zero4U
    rw [get_mkElems 4 4 4 _ i i hi hi]
    exact Uentry_zero4 (i + i) i i (le_refl _)
  have h1 : List.range 4 = [0, 1, 2, 3] := rfl
  rw [h1]
  simp only [List.map]
  rw [hu 0 (by omega), hu 1 (by omega), hu 2 (by omega), hu 3 (by omega)]
  norm_num

/-- C1 counterexample: the 4×4 zero matrix is square with determinant 0 —
whose absolute value is below `1e-10` — yet `invert()` returns an inverse
matrix instead of failing with `SingularMatrix`: the determinant check is
performed only on the `n ≤ 3` path. -/
theorem invert_no_singular_check_on_4x4 :
    zero4.determinant = Except.ok 0 ∧ |(0 : ℚ)| < 1 / 10 ^ 10 ∧
    ∃ M, zero4.invert = Except.ok M :=
  ⟨zero4_det, by norm_num, ⟨_, rfl⟩⟩

/-- C1 (amended): `invert()` fails with `NotSquare` on non-square input; for
square input of size n ≤ 3 it computes the determinant first and fails with
`SingularMatrix` whenever `|det| < 1e-10`; but for square input of size
n ≥ 4 it performs no singularity check at all and always returns a result
matrix. -/
theorem invert_singular_check_amended :
    (∀ A : MatrixN, A.isSquare = false →
      A.invert = Except.error MatrixError.notSquare) ∧
    (∀ (A : MatrixN) (d : ℚ), A.isSquare = true → A.rows ≤ 3 →
      A.determinant = Except.ok d → |d| < 1 / 10 ^ 10 →
      A.invert = Except.error MatrixError.singularMatrix) ∧
    (∀ A : MatrixN, A.isSquare = true → 4 ≤ A.rows →
      ∃ M, A.invert = Except.ok M) := by
  refine ⟨?_, ?_, ?_⟩
  · intro A h
    unfold MatrixN.invert
    rw [h]
    rfl
  · intro A d hsq h3 hdet habs
    unfold MatrixN.invert
    rw [if_pos hsq]
    dsimp only
    rw [if_pos h3, hdet]
    dsimp only
    rw [if_pos habs]
  · intro A hsq h4
    unfold MatrixN.invert MatrixN.invertLU
    rw [if_pos hsq]
    dsimp only
    rw [if_neg (by omega)]
    unfold MatrixN.luDecomposition
    rw [if_neg (by omega)]
    exact ⟨_, rfl⟩

theorem invert_singular_check_amended_witness :
    (MatrixN.mk 2 2 [1, 1, 1, 1]).invert =
      Except.error MatrixError.singularMatrix ∧
    ∃ M, (MatrixN.mk 4 4
      [1, 0, 0, 0, 0, 1, 0, 0, 0, 0, 1, 0, 0, 0, 0, 1]).invert =
        Except.ok M :=
  ⟨invert_singular_check_amended.2.1 (MatrixN.mk 2 2 [1, 1, 1, 1]) 0 rfl
      (by decide)
      (by
        have h : (MatrixN.mk 2 2 [1, 1, 1, 1]).determinant =
            Except.ok ((1 : ℚ) * 1 - 1 * 1) := rfl
        rw [h]
        norm_num)
      (by norm_num),
   invert_singular_check_amended.2.2
     (MatrixN.mk 4 4 [1, 0, 0, 0, 0, 1, 0, 0, 0, 0, 1, 0, 0, 0, 0, 1]) rfl
     (by decide)⟩

/-- C9: on any 1×1 matrix, `minor` fails with `InvalidDimension` (the
constructor's "Matrix dimensions must be positive." error raised by
`MatrixN.zeros(0, 0)`), for every index pair. -/
theorem minor_1x1_invalid_dimension :
    ∀ A : MatrixN, A.rows = 1 → A.cols = 1 → ∀ r c : Nat,
      A.minor r c = Except.error MatrixError.invalidDimension := by
  intro A h1 h2 r c
  have hsq : A.isSquare = true := by
    simp [MatrixN.isSquare, h1, h2]
  unfold MatrixN.minor
  rw [if_pos hsq, h1, h2]
  rfl

theorem minor_1x1_invalid_dimension_witness :
    (MatrixN.mk 1 1 [5]).minor 0 0 =
      Except.error MatrixError.invalidDimension :=
  minor_1x1_invalid_dimension (MatrixN.mk 1 1 [5]) rfl rfl 0 0

/-- C10: structured serialization round-trips exactly: `fromJSON(toJSON(A))`
succeeds for every well-formed matrix (its `elements` array is non-empty
because `rows, cols ≥ 1`) and rebuilds an identical matrix. -/
theorem fromJSON_toJSON_roundtrip :
    ∀ A : MatrixN, A.wf →
      MatrixN.fromJSON (MatrixN.toJSON A) = Except.ok A := by
  intro A hwf
  obtain ⟨h1, h2, h3⟩ := hwf
  have hpos : A.elements.length ≠ 0 := by
    rw [h3]
    exact (Nat.mul_pos h1 h2).ne'
  unfold MatrixN.fromJSON MatrixN.toJSON
  dsimp only
  rw [if_neg hpos]
  unfold MatrixN.make
  rw [if_neg (by omega)]
  dsimp only
  rw [if_pos h3]

theorem fromJSON_toJSON_roundtrip_witness :
    MatrixN.fromJSON (MatrixN.toJSON (MatrixN.mk 2 2 [1, 2, 3, 4])) =
      Except.ok (MatrixN.mk 2 2 [1, 2, 3, 4]) :=
  fromJSON_toJSON_roundtrip (MatrixN.mk 2 2 [1, 2, 3, 4]) (by decide)

theorem getD_set_ne {α : Type} (l : List α) (n m : Nat) (v : α) (d : α)
    (h : n ≠ m) : (l.set n v).getD m d = l.getD m d := by
  simp [List.getD, List.getElem?_set_ne h]

/-- C7: the `rank()` method call leaves the receiver untouched: in the
buffer-heap model, the receiver's buffer cell holds the same contents after
the call, the receiver denotes the same matrix value, and the returned
number is the `rank` of that unchanged value (the elimination runs on the
clone's freshly allocated buffer). -/
theorem rank_receiver_unmodified :
    ∀ (h : Heap) (A : MatRef), A.buf < h.bufs.length →
      (rankMethod h A).2.readBuf A.buf = h.readBuf A.buf ∧
      A.value (rankMethod h A).2 = A.value h ∧
      (rankMethod h A).1 = MatrixN.rank (A.value h) := by
  intro h A hbuf
  have hne : h.bufs.length ≠ A.buf := by omega
  have hclone : (cloneRef h A).2.value (cloneRef h A).1 = A.value h := by
    unfold cloneRef Heap.alloc MatRef.value Heap.readBuf
    dsimp only
    rw [List.getD_append_right _ _ _ _ (le_refl _)]
    simp
  have hread : (rankMethod h A).2.readBuf A.buf = h.readBuf A.buf := by
    unfold rankMethod cloneRef Heap.alloc Heap.writeBuf Heap.readBuf
    dsimp only
    rw [getD_set_ne _ _ _ _ _ hne]
    rw [List.getD_append _ _ _ _ hbuf]
  refine ⟨hread, ?_, ?_⟩
  · unfold MatRef.value
    rw [show (rankMethod h A).2.readBuf A.buf = h.readBuf A.buf from hread]
  · unfold rankMethod MatrixN.rank
    dsimp only
    rw [hclone]
    rfl

theorem rank_receiver_unmodified_witness :
    (rankMethod ⟨[[1, 2, 2, 4]]⟩ ⟨2, 2, 0⟩).2.readBuf 0 =
      Heap.readBuf ⟨[[1, 2, 2, 4]]⟩ 0 ∧
    MatRef.value ⟨2, 2, 0⟩ (rankMethod ⟨[[1, 2, 2, 4]]⟩ ⟨2, 2, 0⟩).2 =
      MatRef.value ⟨2, 2, 0⟩ ⟨[[1, 2, 2, 4]]⟩ ∧
    (rankMethod ⟨[[1, 2, 2, 4]]⟩ ⟨2, 2, 0⟩).1 =
      MatrixN.rank (MatRef.value ⟨2, 2, 0⟩ ⟨[[1, 2, 2, 4]]⟩) :=
  rank_receiver_unmodified ⟨[[1, 2, 2, 4]]⟩ ⟨2, 2, 0⟩ (by decide)

theorem toFixed3_one : toFixed3 (1 : ℚ) = "1.000" := by
  unfold toFixed3
  rw [if_neg (by norm_num)]
  rw [show (⌊|(1 : ℚ)| * 1000 + 1 / 2⌋ : ℤ) = 1000 from by
    rw [abs_one]
    rw [Int.floor_eq_iff]
    norm_num]
  rfl

theorem toFixed3_two : toFixed3 (2 : ℚ) = "2.000" := by
  unfold toFixed3
  rw [if_neg (by norm_num)]
  rw [show (⌊|(2 : ℚ)| * 1000 + 1 / 2⌋ : ℤ) = 2000 from by
    rw [abs_of_nonneg (by norm_num)]
    rw [Int.floor_eq_iff]
    norm_num]
  rfl

theorem toFixed3_three : toFixed3 (3 : ℚ) = "3.000" := by
  unfold toFixed3
  rw [if_neg (by norm_num)]
  rw [show (⌊|(3 : ℚ)| * 1000 + 1 / 2⌋ : ℤ) = 3000 from by
    rw [abs_of_nonneg (by norm_num)]
    rw [Int.floor_eq_iff]
    norm_num]
  rfl

theorem toFixed3_four : toFixed3 (4 : ℚ) = "4.000" := by
  unfold toFixed3
  rw [if_neg (by norm_num)]
  rw [show (⌊|(4 : ℚ)| * 1000 + 1 / 2⌋ : ℤ) = 4000 from by
    rw [abs_of_nonneg (by norm_num)]
    rw [Int.floor_eq_iff]
    norm_num]
  rfl

theorem toString_c8 :
    MatrixN.toString (MatrixN.mk 2 2 [1, 2, 3, 4]) =
      "[1.000, 2.000]\n[3.000, 4.000]" := by
  unfold MatrixN.toString
  norm_num [MatrixN.get, List.range_succ, List.getD]
  rw [toFixed3_one, toFixed3_two, toFixed3_three, toFixed3_four]
  rfl

theorem parse_c8 :
    MatrixN.parse "[1.000, 2.000]\n[3.000, 4.000]" =
      Except.error MatrixError.notSquareString := by
  have hsqrt3 : Nat.sqrt 3 = 1 := (Nat.eq_sqrt.mpr (by norm_num)).symm
  have hlen : (parseElems "[1.000, 2.000]\n[3.000, 4.000]").length = 3 := rfl
  unfold MatrixN.parse
  dsimp only
  rw [hlen, hsqrt3]
  rw [if_neg (by norm_num)]

/-- C8: `toString` and `parse` are not mutually inverse: for the 2×2 matrix
`[1,2,3,4]` (and any matrix with more than one row), `toString` emits one
bracketed row per line joined by newlines, which `parse` — after stripping
brackets and splitting on commas — reads as 3 values, a non-perfect-square
count, so the round trip throws instead of returning the matrix. -/
theorem toString_parse_not_inverses :
    ∃ A : MatrixN, 1 < A.rows ∧
      MatrixN.parse (MatrixN.toString A) =
        Except.error MatrixError.notSquareString := by
  refine ⟨MatrixN.mk 2 2 [1, 2, 3, 4], by decide, ?_⟩
  rw [toString_c8]
  exact parse_c8

/-- A fallible result preserves the data-model invariant when any `ok`
matrix it carries is well-formed. -/
def wfE (r : Except MatrixError MatrixN) : Prop :=
  ∀ B, r = Except.ok B → B.wf


/-- Packaging of the invariant for a literal matrix. -/
theorem wf_mk (r c : Nat) (l : List ℚ) (h1 : 1 ≤ r) (h2 : 1 ≤ c)
    (h3 : l.length = r * c) : (MatrixN.mk r c l).wf := ⟨h1, h2, h3⟩

theorem make_wf (r c : Nat) (d : Option InitData) : wfE (MatrixN.make r c d) := by
  intro B hB
  unfold MatrixN.make at hB
  split at hB
  · cases hB
  next hrc =>
    split at hB
    · simp only [Except.ok.injEq] at hB
      subst hB
      exact wf_mk _ _ _ (by omega) (by omega) (by simp)
    next dd =>
      split at hB
      next hlen =>
        simp only [Except.ok.injEq] at hB
        subst hB
        exact wf_mk _ _ _ (by omega) (by omega) hlen
      · cases hB
    next dd =>
      split at hB
      · simp only [Except.ok.injEq] at hB
        subst hB
        exact wf_mk _ _ _ (by omega) (by omega) (mkElems_length r c _)
      · cases hB

theorem fromArray_wf (d : List (List ℚ)) : wfE (MatrixN.fromArray d) := by
  intro B hB
  unfold MatrixN.fromArray at hB
  split at hB
  · cases hB
  · exact make_wf _ _ _ B hB

theorem identityM_wf (n : Nat) : wfE (MatrixN.identityM n) := by
  intro B hB
  unfold MatrixN.identityM at hB
  split at hB
  · cases hB
  next h =>
    simp only [Except.ok.injEq] at hB
    subst hB
    exact wf_mk _ _ _ (by omega) (by omega) (mkElems_length n n _)

theorem zeros_wf (r c : Nat) : wfE (MatrixN.zeros r c) := by
  intro B hB
  unfold MatrixN.zeros at hB
  exact make_wf r c none B hB

theorem ones_wf (r c : Nat) : wfE (MatrixN.ones r c) := by
  intro B hB
  unfold MatrixN.ones at hB
  split at hB
  · cases hB
  next h =>
    simp only [Except.ok.injEq] at hB
    subst hB
    exact wf_mk _ _ _ (by omega) (by omega) (by simp)

theorem fill_wf (r c : Nat) (v : ℚ) : wfE (MatrixN.fill r c v) := by
  intro B hB
  unfold MatrixN.fill at hB
  split at hB
  · cases hB
  next h =>
    simp only [Except.ok.injEq] at hB
    subst hB
    exact wf_mk _ _ _ (by omega) (by omega) (by simp)

theorem setElementE_wf (A : MatrixN) (r c : Nat) (v : ℚ) (h : A.wf) :
    wfE (A.setElementE r c v) := by
  intro B hB
  unfold MatrixN.setElementE at hB
  split at hB
  · cases hB
  · simp only [Except.ok.injEq] at hB
    subst hB
    obtain ⟨h1, h2, h3⟩ := h
    exact ⟨h1, h2, by simpa [MatrixN.setE] using h3⟩

theorem setAll_wf (A : MatrixN) (vs : List ℚ) (h : A.wf) :
    wfE (A.setAll vs) := by
  intro B hB
  unfold MatrixN.setAll at hB
  split at hB
  · cases hB
  next hlen =>
    simp only [Except.ok.injEq] at hB
    subst hB
    obtain ⟨h1, h2, h3⟩ := h
    simp only [not_not] at hlen
    exact wf_mk _ _ _ h1 h2 (hlen.trans h3)

theorem add_wf (A B : MatrixN) (hA : A.wf) (hB : B.wf) : wfE (A.add B) := by
  intro M hM
  unfold MatrixN.add at hM
  split at hM
  · cases hM
  next h =>
    push_neg at h
    simp only [Except.ok.injEq] at hM
    subst hM
    obtain ⟨a1, a2, a3⟩ := hA
    obtain ⟨b1, b2, b3⟩ := hB
    refine ⟨a1, a2, ?_⟩
    rw [List.length_zipWith, a3, b3, h.1, h.2]
    exact Nat.min_self _

theorem addSelf_wf (A B : MatrixN) (hA : A.wf) (hB : B.wf) :
    wfE (A.addSelf B) := by
  intro M hM
  unfold MatrixN.addSelf at hM
  split at hM
  · cases hM
  next h =>
    push_neg at h
    simp only [Except.ok.injEq] at hM
    subst hM
    obtain ⟨a1, a2, a3⟩ := hA
    obtain ⟨b1, b2, b3⟩ := hB
    refine ⟨a1, a2, ?_⟩
    rw [List.length_zipWith, a3, b3, h.1, h.2]
    exact Nat.min_self _

theorem subtract_wf (A B : MatrixN) (hA : A.wf) (hB : B.wf) :
    wfE (A.subtract B) := by
  intro M hM
  unfold MatrixN.subtract at hM
  split at hM
  · cases hM
  next h =>
    push_neg at h
    simp only [Except.ok.injEq] at hM
    subst hM
    obtain ⟨a1, a2, a3⟩ := hA
    obtain ⟨b1, b2, b3⟩ := hB
    refine ⟨a1, a2, ?_⟩
    rw [List.length_zipWith, a3, b3, h.1, h.2]
    exact Nat.min_self _

theorem multiplyScalar_wf (A : MatrixN) (s : ℚ) (h : A.wf) :
    (A.multiplyScalar s).wf := by
  obtain ⟨h1, h2, h3⟩ := h
  exact ⟨h1, h2, by simpa [MatrixN.multiplyScalar] using h3⟩

theorem divideScalar_wf (A : MatrixN) (s : ℚ) (h : A.wf) :
    wfE (A.divideScalar s) := by
  intro B hB
  unfold MatrixN.divideScalar at hB
  split at hB
  · cases hB
  · simp only [Except.ok.injEq] at hB
    subst hB
    obtain ⟨h1, h2, h3⟩ := h
    exact ⟨h1, h2, by simpa using h3⟩

theorem multiply_wf (A B : MatrixN) (hA : A.wf) (hB : B.wf) :
    wfE (A.multiply B) := by
  intro M hM
  unfold MatrixN.multiply at hM
  split at hM
  · cases hM
  · simp only [Except.ok.injEq] at hM
    subst hM
    exact wf_mk _ _ _ hA.1 hB.2.1 (mkElems_length _ _ _)

theorem transpose_wf (A : MatrixN) (h : A.wf) : A.transpose.wf := by
  unfold MatrixN.transpose
  exact wf_mk _ _ _ h.2.1 h.1 (mkElems_length _ _ _)

theorem luDecomposition_wf (A L U : MatrixN)
    (h : A.luDecomposition = Except.ok (L, U)) : L.wf ∧ U.wf := by
  unfold MatrixN.luDecomposition at h
  split at h
  · cases h
  next h0 =>
    simp only [Except.ok.injEq, Prod.mk.injEq] at h
    obtain ⟨hL, hU⟩ := h
    subst hL
    subst hU
    exact ⟨wf_mk _ _ _ (by omega) (by omega) (mkElems_length _ _ _),
      wf_mk _ _ _ (by omega) (by omega) (mkElems_length _ _ _)⟩

theorem foldlM_except_wf {α : Type}
    (f : MatrixN → α → Except MatrixError MatrixN)
    (hf : ∀ m x m2, m.wf → f m x = Except.ok m2 → m2.wf) :
    ∀ (l : List α) (init out : MatrixN), init.wf →
      l.foldlM f init = Except.ok out → out.wf := by
  intro l
  induction l with
  | nil =>
      intro init out h heq
      simp only [List.foldlM_nil] at heq
      cases heq
      exact h
  | cons x xs ih =>
      intro init out h heq
      rw [List.foldlM_cons] at heq
      cases hfx : f init x with
      | error e =>
          rw [hfx] at heq
          simp only [Bind.bind, Except.bind] at heq
          cases heq
      | ok m =>
          rw [hfx] at heq
          simp only [Bind.bind, Except.bind] at heq
          exact ih m out (hf init x m h hfx) heq

theorem minor_wf (A : MatrixN) (r c : Nat) : wfE (A.minor r c) := by
  intro B hB
  unfold MatrixN.minor at hB
  split at hB
  · cases hz : MatrixN.zeros (A.rows - 1) (A.cols - 1) with
    | error e =>
        rw [hz] at hB
        cases hB
    | ok init =>
        rw [hz] at hB
        have hinit : init.wf := zeros_wf _ _ init hz
        refine foldlM_except_wf _ ?_ _ init B hinit hB
        intro m x m2 hm hfx
        refine foldlM_except_wf _ ?_ _ m m2 hm hfx
        intro m3 q m4 hm3 hset
        exact setElementE_wf m3 x.1 q.1 (A.get x.2 q.2) hm3 m4 hset
  · cases hB

theorem invertLU_wf (A : MatrixN) : wfE A.invertLU := by
  intro B hB
  unfold MatrixN.invertLU at hB
  cases hlu : A.luDecomposition with
  | error e =>
      rw [hlu] at hB
      cases hB
  | ok p =>
      rw [hlu] at hB
      obtain ⟨L, U⟩ := p
      simp only [Except.ok.injEq] at hB
      subst hB
      unfold MatrixN.luDecomposition at hlu
      split at hlu
      · cases hlu
      next h0 => exact wf_mk _ _ _ (by omega) (by omega) (mkElems_length _ _ _)

theorem invert_wf (A : MatrixN) : wfE A.invert := by
  intro B hB
  unfold MatrixN.invert at hB
  split at hB
  case isTrue hsq =>
    dsimp only at hB
    split at hB
    case isTrue h3 =>
      cases hdet : A.determinant with
      | error e =>
          rw [hdet] at hB
          cases hB
      | ok det =>
          rw [hdet] at hB
          dsimp only at hB
          split at hB
          · cases hB
          · split at hB
            · simp only [Except.ok.injEq] at hB
              subst hB
              exact wf_mk _ _ _ (by omega) (by omega) rfl
            · split at hB
              · simp only [Except.ok.injEq] at hB
                subst hB
                exact wf_mk _ _ _ (by omega) (by omega) rfl
              · split at hB
                · simp only [Except.ok.injEq] at hB
                  subst hB
                  exact wf_mk _ _ _ (by omega) (by omega) rfl
                · exact invertLU_wf A B hB
    case isFalse h3 => exact invertLU_wf A B hB
  case isFalse hsq => cases hB

theorem parse_wf (s : String) : wfE (MatrixN.parse s) := by
  intro B hB
  unfold MatrixN.parse at hB
  dsimp only at hB
  split at hB
  · exact make_wf _ _ _ B hB
  · cases hB

theorem fromJSON_wf (j : MatrixJSON) : wfE (MatrixN.fromJSON j) := by
  intro B hB
  unfold MatrixN.fromJSON at hB
  split at hB
  · cases hB
  · exact make_wf _ _ _ B hB

/-- C6: the data-model invariant (`rows ≥ 1`, `cols ≥ 1`,
`elements.length = rows * cols`, fully initialized buffer) holds for every
matrix produced by the constructor or any factory, and is preserved by every
matrix-producing operation of the library. -/
theorem invariant_preserved :
    (∀ r c d, wfE (MatrixN.make r c d)) ∧
    (∀ d, wfE (MatrixN.fromArray d)) ∧
    (∀ n, wfE (MatrixN.identityM n)) ∧
    (∀ r c, wfE (MatrixN.zeros r c)) ∧
    (∀ r c, wfE (MatrixN.ones r c)) ∧
    (∀ r c v, wfE (MatrixN.fill r c v)) ∧
    (∀ (A : MatrixN) (r c : Nat) (v : ℚ), A.wf → wfE (A.setElementE r c v)) ∧
    (∀ (A : MatrixN) (vs : List ℚ), A.wf → wfE (A.setAll vs)) ∧
    (∀ A : MatrixN, A.wf → A.clone.wf) ∧
    (∀ A B : MatrixN, A.wf → B.wf → wfE (A.add B)) ∧
    (∀ A B : MatrixN, A.wf → B.wf → wfE (A.addSelf B)) ∧
    (∀ A B : MatrixN, A.wf → B.wf → wfE (A.subtract B)) ∧
    (∀ (A : MatrixN) (s : ℚ), A.wf → (A.multiplyScalar s).wf) ∧
    (∀ (A : MatrixN) (s : ℚ), A.wf → wfE (A.divideScalar s)) ∧
    (∀ A B : MatrixN, A.wf → B.wf → wfE (A.multiply B)) ∧
    (∀ A : MatrixN, A.wf → A.transpose.wf) ∧
    (∀ A L U : MatrixN, A.luDecomposition = Except.ok (L, U) →
      L.wf ∧ U.wf) ∧
    (∀ (A : MatrixN) (r c : Nat), wfE (A.minor r c)) ∧
    (∀ A : MatrixN, wfE A.invert) ∧
    (∀ s, wfE (MatrixN.parse s)) ∧
    (∀ j, wfE (MatrixN.fromJSON j)) :=
  ⟨make_wf, fromArray_wf, identityM_wf, zeros_wf, ones_wf, fill_wf,
   fun A r c v h => setElementE_wf A r c v h,
   fun A vs h => setAll_wf A vs h,
   fun _ h => ⟨h.1, h.2.1, h.2.2⟩,
   add_wf, addSelf_wf, subtract_wf, multiplyScalar_wf, divideScalar_wf,
   multiply_wf, transpose_wf, luDecomposition_wf, minor_wf, invert_wf,
   parse_wf, fromJSON_wf⟩

theorem invariant_preserved_witness :
    (MatrixN.mk 2 2 [1, 2, 3, 4]).transpose.wf ∧
    wfE ((MatrixN.mk 2 2 [1, 2, 3, 4]).add (MatrixN.mk 2 2 [5, 6, 7, 8])) ∧
    wfE ((MatrixN.mk 1 1 [5]).minor 0 0) :=
  ⟨invariant_preserved.2.2.2.2.2.2.2.2.2.2.2.2.2.2.2.1
      (MatrixN.mk 2 2 [1, 2, 3, 4]) (by decide),
   invariant_preserved.2.2.2.2.2.2.2.2.2.1
      (MatrixN.mk 2 2 [1, 2, 3, 4]) (MatrixN.mk 2 2 [5, 6, 7, 8])
      (by decide) (by decide),
   invariant_preserved.2.2.2.2.2.2.2.2.2.2.2.2.2.2.2.2.2.1
      (MatrixN.mk 1 1 [5]) 0 0⟩
